import Mathlib

/-!
Verification of the Lorenz-system notebook (src/Lorenz_system.ipynb).

The notebook integrates the Lorenz ODE, builds a one-step-ahead supervised
dataset with a pandas `shift(-1)` / `dropna`, splits and standardizes the
data with sklearn, fits a degree-2 polynomial regression pipeline per
output dimension and reports RMSE.  Floating-point values are modelled as
real numbers; library calls (pandas, sklearn) are embedded from their
documented semantics where the notebook delegates to them.
-/

noncomputable section

namespace LorenzML

/-- One Lorenz state: a 3-tuple of coordinates (x, y, z). -/
abbrev Vec3 : Type := ℝ × ℝ × ℝ

/-- Source: `def lorenz(w, t, sigma, rho, beta)` in the notebook.  The Python
body unpacks `x, y, z = w` (a malformed state would raise, modelled by
`none`) and returns the derivative list
`[sigma * (y - x), x * (rho - z) - y, x * y - beta * z]`. -/
def lorenz (w : List ℝ) (t sigma rho beta : ℝ) : Option (List ℝ) :=
  match w with
  | [x, y, z] => some [sigma * (y - x), x * (rho - z) - y, x * y - beta * z]
  | _ => none

/-- Source: `df['x_future'] = df['x'].shift(-1)` (same for y and z).  Each
trajectory row is paired with the next row's state; the final row gets a
missing target (`none`), mirroring the NaN produced by `shift(-1)`. -/
def withFuture (sol : List Vec3) : List (Vec3 × Option Vec3) :=
  sol.zip (sol.tail.map some ++ [none])

/-- Source: `df = df.dropna()`: keep exactly the rows whose shifted target
is present. -/
def dropna (rows : List (Vec3 × Option Vec3)) : List (Vec3 × Vec3) :=
  rows.filterMap (fun r => r.2.map (fun s => (r.1, s)))

/-- The supervised dataset of the notebook: rows `(state i, state (i+1))`
obtained by the shift/dropna construction. -/
def buildDataset (sol : List Vec3) : List (Vec3 × Vec3) :=
  dropna (withFuture sol)

/-- Arithmetic mean of a list, as computed by `numpy.mean` (sum divided by
length; the empty case gives `0/0 = 0` in this model). -/
def mean (l : List ℝ) : ℝ := l.sum / l.length

/-- Population variance (ddof = 0), as computed by sklearn `StandardScaler`:
the mean of the squared deviations from the mean. -/
def variance (l : List ℝ) : ℝ := mean (l.map (fun v => (v - mean l) ^ 2))

/-- Population standard deviation: square root of the variance. -/
def stdDev (l : List ℝ) : ℝ := Real.sqrt (variance l)

/-- Source/library: the per-feature scale stored by `StandardScaler.fit`.
sklearn replaces a zero scale by 1 (`_handle_zeros_in_scale`), otherwise it
is the standard deviation. -/
def scaleOf (l : List ℝ) : ℝ :=
  if variance l = 0 then 1 else Real.sqrt (variance l)

/-- Parameters learned by `StandardScaler.fit` on one feature column:
the column mean (`mean_`) and the column scale (`scale_`). -/
def fitScaler (l : List ℝ) : ℝ × ℝ := (mean l, scaleOf l)

/-- Library: `StandardScaler.transform` on one value of one feature column:
subtract the fitted mean, divide by the fitted scale. -/
def transform (p : ℝ × ℝ) (v : ℝ) : ℝ := (v - p.1) / p.2

/-- Library: `StandardScaler.inverse_transform` on one value: multiply by
the fitted scale, add back the fitted mean. -/
def invTransform (p : ℝ × ℝ) (v : ℝ) : ℝ := v * p.2 + p.1

/-- Source: the scaling cell of the notebook, per feature column:
`scaler = StandardScaler(); X_train = scaler.fit_transform(X_train);
X_test = scaler.transform(X_test)`.  Returns the fitted parameters, the
scaled training column and the scaled evaluation column. -/
def scaleCell (xtrain xtest : List ℝ) : (ℝ × ℝ) × List ℝ × List ℝ :=
  let p := fitScaler xtrain
  (p, xtrain.map (transform p), xtest.map (transform p))

/-- One feature column after `fit_transform` on itself (the training side
of the scaling cell). -/
def scaledColumn (l : List ℝ) : List ℝ := l.map (transform (fitScaler l))

/-- Library: `sklearn.metrics.mean_squared_error(y_true, y_pred)`: the mean
of the squared differences. -/
def meanSquaredError (yTrue yPred : List ℝ) : ℝ :=
  mean ((yTrue.zip yPred).map (fun p => (p.1 - p.2) ^ 2))

/-- Source: `rmse_for_x = np.sqrt(mean_squared_error(Y_test['x_future'],
y_hat_for_x))` (same formula for y and z). -/
def rmse (yTrue yPred : List ℝ) : ℝ :=
  Real.sqrt (meanSquaredError yTrue yPred)

/-- Library: one level of itertools `combinations_with_replacement` as used
by sklearn `PolynomialFeatures`: all multisets obtained by prepending the
current head to a multiset of one degree less, then recursing on the tail
of the feature list (lexicographic order). -/
def cwrStep (prev : List ℝ → List (List ℝ)) : List ℝ → List (List ℝ)
  | [] => []
  | a :: t => (prev (a :: t)).map (fun m => a :: m) ++ cwrStep prev t

/-- Library: `combinations_with_replacement(feats, k)` in the order used by
sklearn `PolynomialFeatures`. -/
def cwr (feats : List ℝ) : ℕ → List (List ℝ)
  | 0 => [[]]
  | k + 1 => cwrStep (fun feats' => cwr feats' k) feats

/-- Library: `PolynomialFeatures(degree=degree)` applied to one sample: all
monomials of total degree at most `degree`, ordered by total degree and
then lexicographically, starting with the bias term 1. -/
def polyFeatures (degree : ℕ) (feats : List ℝ) : List ℝ :=
  (List.range (degree + 1)).flatMap (fun k => (cwr feats k).map List.prod)

/-- The expansion performed inside the notebook pipeline: degree-2
polynomial features of the 3 coordinates of a sample. -/
def expand (v : Vec3) : List ℝ := polyFeatures 2 [v.1, v.2.1, v.2.2]

/-- Dot product of a coefficient vector with a feature row (pairwise
products, truncated at the shorter list). -/
def dot (w xs : List ℝ) : ℝ := (List.zipWith (fun a b => a * b) w xs).sum

/-- Library: the prediction of `LinearRegression` with coefficients `w` and
intercept `b` on one feature row. -/
def affinePred (w : List ℝ) (b : ℝ) (xs : List ℝ) : ℝ := dot w xs + b

/-- Residual sum of squares of an affine model over a design matrix and a
single target column. -/
def RSS (rows : List (List ℝ)) (y : List ℝ) (w : List ℝ) (b : ℝ) : ℝ :=
  ((rows.zip y).map (fun p => (affinePred w b p.1 - p.2) ^ 2)).sum

/-- Column `j` of a design matrix given as a list of rows. -/
def column (rows : List (List ℝ)) (j : ℕ) : List ℝ :=
  rows.map (fun r => r.getD j 0)

/-- Library: the per-column `(mean_, scale_)` parameters fitted by the
`StandardScaler` stage of the notebook pipeline on a design matrix. -/
def colParams (rows : List (List ℝ)) : List (ℝ × ℝ) :=
  (List.range (rows.headD []).length).map
    (fun j => (mean (column rows j), scaleOf (column rows j)))

/-- Library: apply per-column standardization parameters to one row. -/
def scaleRowWith (ps : List (ℝ × ℝ)) (row : List ℝ) : List ℝ :=
  List.zipWith (fun p r => (r - p.1) / p.2) ps row

/-- Library: `LinearRegression.fit` computes an ordinary least-squares
minimizer: the fitted coefficients/intercept achieve a residual sum of
squares no larger than any competitor of the same coefficient length. -/
def IsOLSMin (rows : List (List ℝ)) (y : List ℝ) (w : List ℝ) (b : ℝ) : Prop :=
  ∀ w' b', w'.length = w.length → RSS rows y w b ≤ RSS rows y w' b'

/-- Source: `pipeline.fit(X_train, Y_train[col])` for the pipeline
`PolynomialFeatures(2) → StandardScaler() → LinearRegression()`: the
scaler parameters are fitted on the expanded training matrix, and the
linear model is an ordinary least-squares minimizer on the standardized
expanded features against the single target column. -/
def IsPipelineFit (X : List Vec3) (y : List ℝ) (ps : List (ℝ × ℝ))
    (w : List ℝ) (b : ℝ) : Prop :=
  ps = colParams (X.map expand) ∧ w.length = ps.length ∧
    IsOLSMin ((X.map expand).map (scaleRowWith ps)) y w b

/-- Source: `pipeline.predict` on one sample: expand, standardize with the
fitted column parameters, apply the fitted linear model. -/
def pipelinePredictOn (ps : List (ℝ × ℝ)) (w : List ℝ) (b : ℝ) (v : Vec3) : ℝ :=
  affinePred w b (scaleRowWith ps (expand v))

/-- A rank-deficient training set for the degree-2 pipeline: two samples
whose expansion is a 2 × 10 design matrix. -/
def badX : List Vec3 := [(0, 0, 0), (1, 1, 1)]

/-- Targets for the rank-deficient training set. -/
def badY : List ℝ := [0, 1]

/-- Library: `pipeline.fit` on a fresh or previously fitted sklearn
estimator state.  Per the sklearn fit/refit contract, `fit` discards
everything learned before and re-estimates all parameters from the data
it is given, so the prior state is ignored. -/
def fitCall {P : Type} (solver : List Vec3 × List ℝ → P) (s : Option P)
    (d : List Vec3 × List ℝ) : Option P :=
  match s with
  | _ => some (solver d)

/-- Library: `pipeline.predict` on an estimator state: defined only when
the estimator has been fitted (an unfitted sklearn estimator raises
`NotFittedError`, modelled by `none`). -/
def predictCall {P : Type} (predictor : P → List Vec3 → List ℝ)
    (s : Option P) (X : List Vec3) : Option (List ℝ) :=
  s.map (fun p => predictor p X)

/-- Source: the notebook's three regression cells, which reuse one shared
`pipeline` object: fit on `x_future`, predict, refit the same object on
`y_future`, predict, refit on `z_future`, predict. -/
def sequentialRun {P : Type} (solver : List Vec3 × List ℝ → P)
    (predictor : P → List Vec3 → List ℝ) (Xtr Xte : List Vec3)
    (yx yy yz : List ℝ) :
    Option (List ℝ) × Option (List ℝ) × Option (List ℝ) :=
  let s0 : Option P := none
  let s1 := fitCall solver s0 (Xtr, yx)
  let px := predictCall predictor s1 Xte
  let s2 := fitCall solver s1 (Xtr, yy)
  let py := predictCall predictor s2 Xte
  let s3 := fitCall solver s2 (Xtr, yz)
  let pz := predictCall predictor s3 Xte
  (px, py, pz)

/-- The alternative the design notes call for: three independently
constructed pipelines, each fitted exactly once on its own target. -/
def independentRun {P : Type} (solver : List Vec3 × List ℝ → P)
    (predictor : P → List Vec3 → List ℝ) (Xtr Xte : List Vec3)
    (yx yy yz : List ℝ) :
    Option (List ℝ) × Option (List ℝ) × Option (List ℝ) :=
  (predictCall predictor (fitCall solver none (Xtr, yx)) Xte,
   predictCall predictor (fitCall solver none (Xtr, yy)) Xte,
   predictCall predictor (fitCall solver none (Xtr, yz)) Xte)

/-! ### Theorems -/

/-- Claim C1: for every finite state (x, y, z) and parameters
(sigma, rho, beta), `lorenz` returns exactly the derivative triple
(sigma*(y-x), x*(rho-z)-y, x*y-beta*z); it never fails on a well-formed
state, and at the origin it returns (0, 0, 0) for any parameters. -/
theorem lorenz_vector_field (x y z t sigma rho beta : ℝ) :
    lorenz [x, y, z] t sigma rho beta =
        some [sigma * (y - x), x * (rho - z) - y, x * y - beta * z] ∧
      (lorenz [x, y, z] t sigma rho beta).isSome = true ∧
      lorenz [0, 0, 0] t sigma rho beta = some [0, 0, 0] := by
  refine ⟨rfl, rfl, ?_⟩
  simp [lorenz]

/-- Helper: dropping the rows with a missing shifted target from the zip of
a list with a some-padded list recovers the plain zip. -/
theorem dropna_zip_pad (l m : List Vec3) :
    (l.zip (m.map some ++ [none])).filterMap
        (fun r => r.2.map (fun s => (r.1, s))) = l.zip m := by
  induction l generalizing m with
  | nil => simp
  | cons a l' ih =>
    cases m with
    | nil => simp
    | cons b m' => simp [ih]

/-- Helper: the shift/dropna dataset is the zip of the trajectory with its
own tail. -/
theorem buildDataset_eq_zip_tail (sol : List Vec3) :
    buildDataset sol = sol.zip sol.tail := by
  unfold buildDataset withFuture dropna
  exact dropna_zip_pad sol sol.tail

/-- Helper: entry `i` of the zip of a list with its tail pairs entry `i`
with entry `i + 1`. -/
theorem zip_tail_getElem (l : List Vec3) (i : ℕ) :
    (l.zip l.tail)[i]? =
      (l[i]?).bind (fun a => (l[i + 1]?).map (fun b => (a, b))) := by
  induction l generalizing i with
  | nil => simp
  | cons a t ih =>
    cases t with
    | nil => cases i <;> simp
    | cons b t' =>
      cases i with
      | zero => simp
      | succ j => simpa using ih j

/-- Claim C2: for a trajectory of length n ≥ 1 the dataset builder outputs
exactly n - 1 rows, with features[i] = state[i] and targets[i] =
state[i+1] for every i in [0, n-2]; only the final entry is discarded. -/
theorem dataset_builder_correct (sol : List Vec3) (h : 1 ≤ sol.length) :
    (buildDataset sol).length = sol.length - 1 ∧
      ∀ i, i < sol.length - 1 →
        ∃ a b, sol[i]? = some a ∧ sol[i + 1]? = some b ∧
          (buildDataset sol)[i]? = some (a, b) := by
  constructor
  · rw [buildDataset_eq_zip_tail, List.length_zip, List.length_tail]
    omega
  · intro i hi
    have h1 : i < sol.length := by omega
    have h2 : i + 1 < sol.length := by omega
    obtain ⟨a, ha⟩ : ∃ a, sol[i]? = some a :=
      ⟨_, List.getElem?_eq_getElem h1⟩
    obtain ⟨b, hb⟩ : ∃ b, sol[i + 1]? = some b :=
      ⟨_, List.getElem?_eq_getElem h2⟩
    refine ⟨a, b, ha, hb, ?_⟩
    rw [buildDataset_eq_zip_tail, zip_tail_getElem, ha, hb]
    rfl

/-- Witness for C2 at a concrete three-row trajectory. -/
theorem dataset_builder_correct_witness :
    1 ≤ ([((1 : ℝ), 2, 3), (4, 5, 6), (7, 8, 9)] : List Vec3).length ∧
      ((buildDataset [((1 : ℝ), 2, 3), (4, 5, 6), (7, 8, 9)]).length =
          ([((1 : ℝ), 2, 3), (4, 5, 6), (7, 8, 9)] : List Vec3).length - 1 ∧
        ∀ i, i < ([((1 : ℝ), 2, 3), (4, 5, 6), (7, 8, 9)] : List Vec3).length - 1 →
          ∃ a b,
            ([((1 : ℝ), 2, 3), (4, 5, 6), (7, 8, 9)] : List Vec3)[i]? = some a ∧
            ([((1 : ℝ), 2, 3), (4, 5, 6), (7, 8, 9)] : List Vec3)[i + 1]? = some b ∧
            (buildDataset [((1 : ℝ), 2, 3), (4, 5, 6), (7, 8, 9)])[i]? = some (a, b)) :=
  ⟨by simp, dataset_builder_correct _ (by simp)⟩

/-- Claim C3: the standardization parameters are fitted exclusively on the
training partition and the identical affine transform is applied to the
evaluation partition: two runs of the scaling cell that differ only in the
evaluation column fit the same parameters and produce the same scaled
training column, and the evaluation column is transformed with the
train-fitted parameters. -/
theorem scaler_fit_only_on_train (xtrain t1 t2 : List ℝ) :
    (scaleCell xtrain t1).1 = (scaleCell xtrain t2).1 ∧
      (scaleCell xtrain t1).2.1 = (scaleCell xtrain t2).2.1 ∧
      (scaleCell xtrain t1).2.2 = t1.map (transform (fitScaler xtrain)) :=
  ⟨rfl, rfl, rfl⟩

/-- Helper: sum of an affine image of a list. -/
theorem sum_map_affine (l : List ℝ) (a b : ℝ) :
    (l.map (fun v => a * v + b)).sum = a * l.sum + b * l.length := by
  induction l with
  | nil => simp
  | cons x t ih =>
    simp [ih]
    ring

/-- Helper: mean of an affine image of a nonempty list. -/
theorem mean_affine (l : List ℝ) (h : l ≠ []) (a b : ℝ) :
    mean (l.map (fun v => a * v + b)) = a * mean l + b := by
  have hn : (l.length : ℝ) ≠ 0 := by
    have : l.length ≠ 0 := fun h0 => h (List.length_eq_zero.mp h0)
    exact_mod_cast this
  unfold mean
  rw [sum_map_affine, List.length_map]
  field_simp

/-- Helper: sum commutes with a left scalar multiple under a map. -/
theorem sum_map_mul_left (l : List ℝ) (c : ℝ) (f : ℝ → ℝ) :
    (l.map (fun v => c * f v)).sum = c * (l.map f).sum := by
  induction l with
  | nil => simp
  | cons x t ih =>
    simp [ih]
    ring

/-- Helper: mean commutes with a left scalar multiple under a map. -/
theorem mean_map_mul_left (l : List ℝ) (c : ℝ) (f : ℝ → ℝ) :
    mean (l.map (fun v => c * f v)) = c * mean (l.map f) := by
  unfold mean
  rw [sum_map_mul_left, List.length_map, List.length_map, mul_div_assoc]

/-- Helper: variance of an affine image of a nonempty list. -/
theorem variance_affine (l : List ℝ) (h : l ≠ []) (a b : ℝ) :
    variance (l.map (fun v => a * v + b)) = a ^ 2 * variance l := by
  unfold variance
  rw [mean_affine l h, List.map_map]
  have hcomp : ((fun v => (v - (a * mean l + b)) ^ 2) ∘ fun v => a * v + b) =
      fun v => a ^ 2 * ((fun w => (w - mean l) ^ 2) v) := by
    funext v
    simp only [Function.comp]
    ring
  rw [hcomp, mean_map_mul_left]

/-- Helper: the population variance is nonnegative. -/
theorem variance_nonneg (l : List ℝ) : 0 ≤ variance l := by
  unfold variance mean
  apply div_nonneg
  · apply List.sum_nonneg
    intro x hx
    simp only [List.mem_map] at hx
    obtain ⟨v, _, rfl⟩ := hx
    positivity
  · positivity

/-- Helper: the fitted scale is never zero (sklearn substitutes 1 for a
zero-variance column). -/
theorem scaleOf_ne_zero (l : List ℝ) : scaleOf l ≠ 0 := by
  unfold scaleOf
  split_ifs with hv
  · exact one_ne_zero
  · exact Real.sqrt_ne_zero'.mpr (lt_of_le_of_ne (variance_nonneg l) (Ne.symm hv))

/-- Helper: on a column of nonzero variance, the fitted scale squares back
to the variance. -/
theorem sq_scaleOf (l : List ℝ) (h : variance l ≠ 0) :
    scaleOf l ^ 2 = variance l := by
  unfold scaleOf
  rw [if_neg h, Real.sq_sqrt (variance_nonneg l)]

/-- Helper: mapping a function that fixes every member is the identity. -/
theorem map_id_of_mem {α : Type} {l : List α} {f : α → α}
    (h : ∀ v ∈ l, f v = v) : l.map f = l := by
  induction l with
  | nil => rfl
  | cons x t ih =>
    simp only [List.map_cons]
    rw [h x (by simp), ih (fun v hv => h v (by simp [hv]))]

/-- Claim C7: after fitting the standardizer on a (nonempty, nondegenerate)
training column, the scaled column has mean 0 and standard deviation 1,
and applying the inverse transform to the scaled column reconstructs the
original values exactly (round-trip law). -/
theorem scaler_standardizes_roundtrip (l : List ℝ) (h1 : l ≠ [])
    (h2 : variance l ≠ 0) :
    mean (scaledColumn l) = 0 ∧ stdDev (scaledColumn l) = 1 ∧
      (scaledColumn l).map (invTransform (fitScaler l)) = l := by
  have hs : scaleOf l ≠ 0 := scaleOf_ne_zero l
  have hcol : scaledColumn l =
      l.map (fun v => (1 / scaleOf l) * v + (-(mean l / scaleOf l))) := by
    unfold scaledColumn
    rw [show transform (fitScaler l) =
        fun v => (1 / scaleOf l) * v + (-(mean l / scaleOf l)) from
      funext fun v => by unfold transform fitScaler; ring]
  refine ⟨?_, ?_, ?_⟩
  · rw [hcol, mean_affine l h1]
    ring
  · unfold stdDev
    rw [hcol, variance_affine l h1]
    have hone : (1 / scaleOf l) ^ 2 * variance l = 1 := by
      rw [div_pow, one_pow, sq_scaleOf l h2]
      field_simp
    rw [hone, Real.sqrt_one]
  · unfold scaledColumn
    rw [List.map_map]
    apply map_id_of_mem
    intro v _
    unfold invTransform transform fitScaler
    simp only [Function.comp]
    rw [div_mul_cancel₀ _ hs]
    ring

/-- Witness for C7 at the concrete column [0, 2] (mean 1, variance 1). -/
theorem scaler_standardizes_roundtrip_witness :
    (([0, 2] : List ℝ) ≠ [] ∧ variance [0, 2] ≠ 0) ∧
      (mean (scaledColumn [0, 2]) = 0 ∧ stdDev (scaledColumn [0, 2]) = 1 ∧
        (scaledColumn [0, 2]).map (invTransform (fitScaler [0, 2])) = [0, 2]) :=
  ⟨⟨by simp, by norm_num [variance, mean]⟩,
   scaler_standardizes_roundtrip [0, 2] (by simp) (by norm_num [variance, mean])⟩

/-- Claim C8: the evaluation stage computes exactly
sqrt(mean((prediction - actual)^2)) over the evaluation predictions and
ground truth, and the result is a plain nonnegative number (the embedding
is a pure function; nothing else is touched). -/
theorem rmse_formula (yTrue yPred : List ℝ) :
    rmse yTrue yPred =
        Real.sqrt ((((yTrue.zip yPred).map (fun p => (p.2 - p.1) ^ 2)).sum) /
          ((yTrue.zip yPred).length : ℝ)) ∧
      0 ≤ rmse yTrue yPred := by
  constructor
  · unfold rmse meanSquaredError mean
    rw [List.length_map]
    have hmaps : (fun p : ℝ × ℝ => (p.1 - p.2) ^ 2) =
        fun p : ℝ × ℝ => (p.2 - p.1) ^ 2 := by
      funext p
      ring
    rw [hmaps]
  · exact Real.sqrt_nonneg _

/-- Helper: sklearn's PolynomialFeatures at degree 2 on three features
produces exactly the ten monomials 1, x, y, z, x², xy, xz, y², yz, z² in
this order. -/
theorem polyFeatures_two (x y z : ℝ) :
    polyFeatures 2 [x, y, z] =
      [1, x, y, z, x * x, x * y, x * z, y * y, y * z, z * z] := by
  simp [polyFeatures, show List.range 3 = [0, 1, 2] from rfl, cwr, cwrStep]

/-- Helper: the degree-2 expansion of a sample has exactly ten columns. -/
theorem expand_length (v : Vec3) : (expand v).length = 10 := by
  simp [expand, polyFeatures_two]

/-- Helper: a residual sum of squares is nonnegative. -/
theorem RSS_nonneg (rows : List (List ℝ)) (y : List ℝ) (w : List ℝ) (b : ℝ) :
    0 ≤ RSS rows y w b := by
  unfold RSS
  apply List.sum_nonneg
  intro x hx
  simp only [List.mem_map] at hx
  obtain ⟨p, _, rfl⟩ := hx
  positivity

/-- Claim C4 (code bug evidence): at the concrete training set `badX`,
`badY` the expanded design matrix has 2 rows and 10 columns, and the
least-squares problem that the pipeline's `LinearRegression` solves is
under-determined: two distinct coefficient vectors both attain the global
minimum 0 of the residual sum of squares.  sklearn fits this system via
scipy `lstsq`, silently returning a minimum-norm solution; no
rank-deficiency error is surfaced, contrary to the claim. -/
theorem rank_deficient_fit_underdetermined :
    (badX.map expand).length = 2 ∧
      (∀ r ∈ badX.map expand, r.length = 10) ∧
      RSS (badX.map expand) badY [0, 1, 0, 0, 0, 0, 0, 0, 0, 0] 0 = 0 ∧
      RSS (badX.map expand) badY [0, 0, 1, 0, 0, 0, 0, 0, 0, 0] 0 = 0 ∧
      ([0, 1, 0, 0, 0, 0, 0, 0, 0, 0] : List ℝ) ≠
        [0, 0, 1, 0, 0, 0, 0, 0, 0, 0] ∧
      ∀ w b, 0 ≤ RSS (badX.map expand) badY w b := by
  refine ⟨by simp [badX], ?_, ?_, ?_, ?_, fun w b => RSS_nonneg _ _ _ _⟩
  · intro r hr
    simp only [List.mem_map] at hr
    obtain ⟨v, _, rfl⟩ := hr
    exact expand_length v
  · simp [RSS, badX, badY, expand, polyFeatures_two, affinePred, dot]
  · simp [RSS, badX, badY, expand, polyFeatures_two, affinePred, dot]
  · norm_num

/-- Helper: dot product unfolding on cons cells. -/
theorem dot_cons (a : ℝ) (w : List ℝ) (c : ℝ) (xs : List ℝ) :
    dot (a :: w) (c :: xs) = a * c + dot w xs := by
  simp [dot]

/-- Helper: pointwise reparametrization: an affine model applied to a
standardized row is the same as a rescaled affine model applied to the raw
row. -/
theorem dot_scaleRow (ps : List (ℝ × ℝ)) :
    ∀ (w row : List ℝ), ps.length = row.length →
      dot w (scaleRowWith ps row) =
        dot (List.zipWith (fun a p => a / p.2) w ps) row -
          (List.zipWith (fun a p => a * p.1 / p.2) w ps).sum := by
  induction ps with
  | nil =>
    intro w row _
    simp [scaleRowWith, dot]
  | cons p ps' ih =>
    intro w row h
    cases row with
    | nil => simp at h
    | cons r row' =>
      cases w with
      | nil => simp [scaleRowWith, dot]
      | cons w0 w' =>
        have h' : ps'.length = row'.length := by simpa using h
        rw [show scaleRowWith (p :: ps') (r :: row') =
              ((r - p.1) / p.2) :: scaleRowWith ps' row' from rfl,
          dot_cons, List.zipWith_cons_cons, List.zipWith_cons_cons, dot_cons,
          List.sum_cons, ih w' row' h']
        ring

/-- Helper: `affinePred` version of the pointwise reparametrization. -/
theorem affinePred_scaleRow (w : List ℝ) (b : ℝ) (ps : List (ℝ × ℝ))
    (row : List ℝ) (h : ps.length = row.length) :
    affinePred w b (scaleRowWith ps row) =
      affinePred (List.zipWith (fun a p => a / p.2) w ps)
        (b - (List.zipWith (fun a p => a * p.1 / p.2) w ps).sum) row := by
  unfold affinePred
  rw [dot_scaleRow ps w row h]
  ring

/-- Helper: a map whose function agrees on every member can be replaced. -/
theorem map_congr_mem {α β : Type} {l : List α} {f g : α → β}
    (h : ∀ a ∈ l, f a = g a) : l.map f = l.map g := by
  induction l with
  | nil => rfl
  | cons x t ih =>
    simp only [List.map_cons]
    rw [h x (by simp), ih (fun v hv => h v (by simp [hv]))]

/-- Helper: residual sum of squares of an affine model on the standardized
design matrix equals that of the rescaled affine model on the raw design
matrix. -/
theorem RSS_map_scaleRow (rows : List (List ℝ)) (y : List ℝ) (w : List ℝ)
    (b : ℝ) (ps : List (ℝ × ℝ)) (h : ∀ r ∈ rows, ps.length = r.length) :
    RSS (rows.map (scaleRowWith ps)) y w b =
      RSS rows y (List.zipWith (fun a p => a / p.2) w ps)
        (b - (List.zipWith (fun a p => a * p.1 / p.2) w ps).sum) := by
  unfold RSS
  rw [List.zip_map_left, List.map_map]
  apply congrArg List.sum
  apply map_congr_mem
  intro q hq
  have hq1 : q.1 ∈ rows := (List.of_mem_zip hq).1
  simp only [Function.comp, Prod.map, id_eq]
  rw [affinePred_scaleRow w b ps q.1 (h q.1 hq1)]

/-- Helper: rescaling coefficients by the column scales and dividing again
recovers the original coefficients (scales are nonzero). -/
theorem zipWith_unscale (ps : List (ℝ × ℝ)) :
    ∀ w : List ℝ, (∀ p ∈ ps, p.2 ≠ 0) → w.length = ps.length →
      List.zipWith (fun a p => a / p.2)
        (List.zipWith (fun a p => a * p.2) w ps) ps = w := by
  induction ps with
  | nil =>
    intro w _ h
    have : w = [] := List.length_eq_zero.mp (by simpa using h)
    subst this
    simp
  | cons p ps' ih =>
    intro w hnz h
    cases w with
    | nil => simp at h
    | cons a w' =>
      simp only [List.zipWith_cons_cons]
      rw [mul_div_cancel_right₀ a (hnz p (by simp)),
        ih w' (fun q hq => hnz q (by simp [hq])) (by simpa using h)]

/-- Helper: the mean-correction terms of the rescaled coefficients collapse
to plain products with the column means. -/
theorem zipWith_unscale_mu (ps : List (ℝ × ℝ)) :
    ∀ w : List ℝ, (∀ p ∈ ps, p.2 ≠ 0) →
      List.zipWith (fun a p => a * p.1 / p.2)
        (List.zipWith (fun a p => a * p.2) w ps) ps =
        List.zipWith (fun a p => a * p.1) w ps := by
  induction ps with
  | nil => intro w _; simp
  | cons p ps' ih =>
    intro w hnz
    cases w with
    | nil => simp
    | cons a w' =>
      simp only [List.zipWith_cons_cons]
      rw [ih w' (fun q hq => hnz q (by simp [hq]))]
      have hp : p.2 ≠ 0 := hnz p (by simp)
      congr 1
      field_simp
      ring

/-- Helper: the number of fitted per-column scaler parameters equals the
width of the first design-matrix row. -/
theorem colParams_length (rows : List (List ℝ)) :
    (colParams rows).length = (rows.headD []).length := by
  simp [colParams]

/-- Helper: every fitted per-column scale is nonzero. -/
theorem colParams_scale_ne_zero (rows : List (List ℝ)) :
    ∀ p ∈ colParams rows, p.2 ≠ 0 := by
  intro p hp
  simp only [colParams, List.mem_map] at hp
  obtain ⟨j, _, rfl⟩ := hp
  exact scaleOf_ne_zero _

/-- Claim C6: the pipeline expands each (scaled) 3-feature sample into
exactly the ten degree-at-most-2 monomials 1, x, y, z, x², xy, xz, y², yz,
z², and its fit against one target dimension is an ordinary least-squares
affine model on those expanded features: any fitted pipeline's prediction
function coincides with an affine model on the raw expansion that
minimizes the residual sum of squares over the expanded training matrix. -/
theorem poly_pipeline_expansion_ols :
    (∀ x y z : ℝ, polyFeatures 2 [x, y, z] =
        [1, x, y, z, x * x, x * y, x * z, y * y, y * z, z * z]) ∧
      ∀ (X : List Vec3) (y : List ℝ) (ps : List (ℝ × ℝ)) (w : List ℝ) (b : ℝ),
        X ≠ [] → IsPipelineFit X y ps w b →
        ∃ w' b', w'.length = 10 ∧
          (∀ v : Vec3, pipelinePredictOn ps w b v = affinePred w' b' (expand v)) ∧
          IsOLSMin (X.map expand) y w' b' := by
  refine ⟨polyFeatures_two, ?_⟩
  intro X y ps w b hX hfit
  obtain ⟨hps, hwlen, hmin⟩ := hfit
  obtain ⟨x0, X', rfl⟩ : ∃ x0 X', X = x0 :: X' := by
    cases X with
    | nil => exact absurd rfl hX
    | cons x0 X' => exact ⟨x0, X', rfl⟩
  have hps10 : ps.length = 10 := by
    rw [hps, colParams_length]
    simp [expand_length]
  have hsne : ∀ p ∈ ps, p.2 ≠ 0 := by
    rw [hps]
    exact colParams_scale_ne_zero _
  have hrowlen : ∀ r ∈ (x0 :: X').map expand, ps.length = r.length := by
    intro r hr
    simp only [List.mem_map] at hr
    obtain ⟨v, _, rfl⟩ := hr
    rw [hps10, expand_length]
  refine ⟨List.zipWith (fun a p => a / p.2) w ps,
    b - (List.zipWith (fun a p => a * p.1 / p.2) w ps).sum, ?_, ?_, ?_⟩
  · rw [List.length_zipWith, hwlen, hps10]
    simp
  · intro v
    unfold pipelinePredictOn
    rw [affinePred_scaleRow w b ps (expand v) (by rw [hps10, expand_length])]
  · intro w'' b'' hlen''
    have hlen10 : w''.length = 10 := by
      rw [hlen'', List.length_zipWith, hwlen, hps10]
      simp
    have e1 : RSS ((x0 :: X').map expand) y
        (List.zipWith (fun a p => a / p.2) w ps)
        (b - (List.zipWith (fun a p => a * p.1 / p.2) w ps).sum) =
        RSS (((x0 :: X').map expand).map (scaleRowWith ps)) y w b :=
      (RSS_map_scaleRow _ y w b ps hrowlen).symm
    have e2 : RSS (((x0 :: X').map expand).map (scaleRowWith ps)) y
        (List.zipWith (fun a p => a * p.2) w'' ps)
        (b'' + (List.zipWith (fun a p => a * p.1) w'' ps).sum) =
        RSS ((x0 :: X').map expand) y w'' b'' := by
      rw [RSS_map_scaleRow _ y _ _ ps hrowlen,
        zipWith_unscale ps w'' hsne (by rw [hlen10, hps10]),
        zipWith_unscale_mu ps w'' hsne]
      congr 1
      ring
    have hWhatlen : (List.zipWith (fun a p => a * p.2) w'' ps).length =
        w.length := by
      rw [List.length_zipWith, hlen10, hps10, hwlen, hps10]
      simp
    calc RSS ((x0 :: X').map expand) y
          (List.zipWith (fun a p => a / p.2) w ps)
          (b - (List.zipWith (fun a p => a * p.1 / p.2) w ps).sum)
        = RSS (((x0 :: X').map expand).map (scaleRowWith ps)) y w b := e1
      _ ≤ RSS (((x0 :: X').map expand).map (scaleRowWith ps)) y
            (List.zipWith (fun a p => a * p.2) w'' ps)
            (b'' + (List.zipWith (fun a p => a * p.1) w'' ps).sum) :=
          hmin _ _ hWhatlen
      _ = RSS ((x0 :: X').map expand) y w'' b'' := e2

/-- Helper: an all-zero coefficient vector predicts zero. -/
theorem dot_zeros (w : List ℝ) (h : ∀ a ∈ w, a = 0) :
    ∀ xs : List ℝ, dot w xs = 0 := by
  induction w with
  | nil =>
    intro xs
    simp [dot]
  | cons a t ih =>
    intro xs
    cases xs with
    | nil => simp [dot]
    | cons c cs =>
      rw [dot_cons, h a (by simp), ih (fun v hv => h v (by simp [hv])) cs]
      ring

/-- Witness for C6 at the concrete one-sample training set [(0,0,0)] with
target [0], whose fitted pipeline is the zero model. -/
theorem poly_pipeline_expansion_ols_witness :
    (([((0 : ℝ), 0, 0)] : List Vec3) ≠ [] ∧
      IsPipelineFit [((0 : ℝ), 0, 0)] [(0 : ℝ)]
        (colParams (([((0 : ℝ), 0, 0)] : List Vec3).map expand))
        (List.replicate 10 0) 0) ∧
      ∃ w' b', w'.length = 10 ∧
        (∀ v : Vec3,
          pipelinePredictOn
            (colParams (([((0 : ℝ), 0, 0)] : List Vec3).map expand))
            (List.replicate 10 0) 0 v = affinePred w' b' (expand v)) ∧
        IsOLSMin (([((0 : ℝ), 0, 0)] : List Vec3).map expand) [(0 : ℝ)] w' b' := by
  have hne : ([((0 : ℝ), 0, 0)] : List Vec3) ≠ [] := by simp
  have hfit : IsPipelineFit [((0 : ℝ), 0, 0)] [(0 : ℝ)]
      (colParams (([((0 : ℝ), 0, 0)] : List Vec3).map expand))
      (List.replicate 10 0) 0 := by
    refine ⟨rfl, ?_, ?_⟩
    · rw [List.length_replicate, colParams_length]
      simp [expand_length]
    · intro w' b' _
      have hz : RSS ((([((0 : ℝ), 0, 0)] : List Vec3).map expand).map
          (scaleRowWith
            (colParams (([((0 : ℝ), 0, 0)] : List Vec3).map expand))))
          [(0 : ℝ)] (List.replicate 10 0) 0 = 0 := by
        simp [RSS, affinePred]
        exact dot_zeros _ (by simp) _
      rw [hz]
      exact RSS_nonneg _ _ _ _
  exact ⟨⟨hne, hfit⟩, poly_pipeline_expansion_ols.2 _ _ _ _ _ hne hfit⟩

/-- Claim C10: refitting the single shared pipeline object sequentially for
the x, y and z targets yields exactly the same three prediction arrays as
constructing three independent pipelines and fitting each once, for any
solver and predictor: each fit call fully overwrites the previous fitted
state. -/
theorem refit_equals_independent_fits (P : Type)
    (solver : List Vec3 × List ℝ → P) (predictor : P → List Vec3 → List ℝ)
    (Xtr Xte : List Vec3) (yx yy yz : List ℝ) :
    sequentialRun solver predictor Xtr Xte yx yy yz =
      independentRun solver predictor Xtr Xte yx yy yz := rfl

end LorenzML
